import Mathlib

/-!
Verification of the `snapdragon-node` AST node library (src/index.js and the
variant implementation in src/unnamed/part_001).

JS objects are embedded in an explicit heap: a node id is an index into a
list of `NodeData` records, and every operation of the `Node` class becomes a
function from heap (and receiver/argument ids) to heap plus a result.  A JS
`undefined`/`null` field is `Option.none`; the non-enumerable `idx` cache is
`Option Int` (`none` = the property was never defined); JS numbers that stay
integral (`count`, indices) are `Int`.  A non-node argument to an operation is
modelled as an id with no entry in the heap, so `Node.isNode` = "the id
resolves".
-/

namespace SnapdragonNode

/-- The error taxonomy of the spec: `invalidArgument` for the `expect`
assertion failures, `invalidOperation` for assignments to the read-only
accessors, `typeError` for the `TypeError` thrown by the `isType` helper of
src/unnamed/part_001. -/
inductive JsError where
  | invalidArgument
  | invalidOperation
  | typeError
  deriving DecidableEq, Repr

/-- Return values of the mutation operations, as JS values: `undef` and
`nullv` are `undefined`/`null`, `node` a node object, `arr` an array of node
objects (what `Array.prototype.splice` returns), `num` a JS number. -/
inductive JsValue where
  | undef
  | nullv
  | node (id : Nat)
  | arr (elems : List Nat)
  | num (n : Int)
  deriving DecidableEq, Repr

/-- One JS `Node` object (src/index.js).  `type`/`val` are the enumerable data
fields set by the constructor; `nodes` is the child array (absent until the
first `push`/`unshift` creates it, or `remove` creates an empty one);
`parent` and `count` are the non-enumerable fields installed by the
constructor; `idx` is the non-enumerable index cache written by the `index`
setter and getter. -/
structure NodeData where
  type : Option String
  val : Option String
  nodes : Option (List Nat)
  parent : Option Nat
  idx : Option Int
  count : Int
  deriving DecidableEq, Repr

abbrev Heap := List NodeData

/-- The node built by `new Node({type: t})`: the constructor takes the merge
branch, `assign` copies the one field `type` (not a prototype name), and the
constructor has already defined `parent` (absent), `count := 0`; `idx` was
never defined and `nodes` is absent. -/
def mkTypeNode (t : String) : NodeData :=
  { type := some t, val := none, nodes := none, parent := none, idx := none, count := 0 }

/-- `get siblings()` (src/index.js:314): `this.parent ? this.parent.nodes :
null`.  `none` is a JS non-array result (`null`, or `undefined` when the
parent exists but has no `nodes` yet), so `Array.isArray(this.siblings)`
is exactly `(siblingsOf h n).isSome`. -/
def siblingsOf (h : Heap) (n : Nat) : Option (List Nat) :=
  match h[n]? with
  | none => none
  | some d =>
    match d.parent with
    | none => none
    | some p => (h[p]?).bind NodeData.nodes

/-- JS array element read `l[i]` with a possibly negative index: `undefined`
(`none`) when `i` is negative or at least the length. -/
def jsGet (l : List Nat) (i : Int) : Option Nat :=
  if i < 0 then none else l[i.toNat]?

/-- `Array.prototype.indexOf`: position of the first occurrence, `-1` when the
element does not occur. -/
def jsIndexOf : List Nat → Nat → Int
  | [], _ => -1
  | y :: l, x =>
    if y = x then 0
    else
      let r := jsIndexOf l x
      if r = -1 then -1 else r + 1

/-- The `index` setter (src/index.js:339): `define(this, 'idx', index)` — it
only writes the cache hint. -/
def setIndex (h : Heap) (n : Nat) (v : Int) : Heap :=
  match h[n]? with
  | some d => h.set n { d with idx := some v }
  | none => h

/-- The recompute path of the `index` getter:
`this.idx = this.siblings.indexOf(this); return this.idx`. -/
def recomputeIdx (h : Heap) (n : Nat) (d : NodeData) (sibs : List Nat) : Int × Heap :=
  let j := jsIndexOf sibs n
  (j, h.set n { d with idx := some j })

/-- The `index` getter (src/index.js:342): returns `-1` when `siblings` is not
an array; otherwise trusts the cached `idx` when the sibling there is
identity-equal to this node (`tok !== this`), and else recomputes it with
`indexOf` and stores it.  The returned heap reflects the getter's cache
write.  When `idx` was never defined, `this.siblings[this.idx]` is
`undefined`, which is not `this`, so the getter recomputes. -/
def getIndex (h : Heap) (n : Nat) : Int × Heap :=
  match h[n]?, siblingsOf h n with
  | some d, some sibs =>
    match d.idx with
    | some i => if i ≠ -1 ∧ jsGet sibs i = some n then (i, h) else recomputeIdx h n d sibs
    | none => recomputeIdx h n d sibs
  | _, _ => (-1, h)

/-- `push(node)` (src/index.js:134): `expect(Node.isNode(node))`, then
`define(node, 'parent', this)`, `this.nodes = this.nodes || []`,
`this.count++`, and `this.nodes.push(node)` returning the new length.
An unresolvable receiver or argument id is a non-node value: `expect`
throws before any mutation. -/
def push (h : Heap) (self other : Nat) : Except JsError (Heap × Int) :=
  match h[self]? with
  | none => .error .invalidArgument
  | some _ =>
    match h[other]? with
    | none => .error .invalidArgument
    | some od =>
      let h1 := h.set other { od with parent := some self }
      match h1[self]? with
      | some d =>
        let ns := d.nodes.getD [] ++ [other]
        .ok (h1.set self { d with nodes := some ns, count := d.count + 1 }, (ns.length : Int))
      | none => .error .invalidArgument

/-- `unshift(node)` (src/index.js:157): as `push`, prepending instead. -/
def unshift (h : Heap) (self other : Nat) : Except JsError (Heap × Int) :=
  match h[self]? with
  | none => .error .invalidArgument
  | some _ =>
    match h[other]? with
    | none => .error .invalidArgument
    | some od =>
      let h1 := h.set other { od with parent := some self }
      match h1[self]? with
      | some d =>
        let ns := other :: d.nodes.getD []
        .ok (h1.set self { d with nodes := some ns, count := d.count + 1 }, (ns.length : Int))
      | none => .error .invalidArgument

/-- `pop()` (src/index.js:185): `this.count--` happens unconditionally, then
`this.nodes && this.nodes.pop()` — `undefined` when `nodes` is absent or
empty, the removed last child otherwise.  The popped child's `parent` and
`idx` are untouched. -/
def pop (h : Heap) (self : Nat) : Heap × JsValue :=
  match h[self]? with
  | none => (h, .undef)
  | some d =>
    match d.nodes with
    | none => (h.set self { d with count := d.count - 1 }, .undef)
    | some l =>
      (h.set self { d with count := d.count - 1, nodes := some l.dropLast },
       match l.getLast? with
       | some x => .node x
       | none => .undef)

/-- `shift()` (src/index.js:209): as `pop`, removing the first child. -/
def shift (h : Heap) (self : Nat) : Heap × JsValue :=
  match h[self]? with
  | none => (h, .undef)
  | some d =>
    match d.nodes with
    | none => (h.set self { d with count := d.count - 1 }, .undef)
    | some l =>
      (h.set self { d with count := d.count - 1, nodes := some l.tail },
       match l.head? with
       | some x => .node x
       | none => .undef)

/-- `Array.prototype.splice(i, 1)`: the array without position `i`, and the
array of removed elements (empty when `i` is out of range). -/
def splice1 (l : List Nat) (i : Nat) : List Nat × List Nat :=
  (l.take i ++ l.drop (i + 1), (l.drop i).take 1)

/-- `remove(node)` (src/index.js:225): `expect(Node.isNode(node))`, then
`this.nodes = this.nodes || []`, `const idx = node.index` (the getter, with
its cache write — note it is the argument's index among the argument's own
siblings), and if `idx !== -1`: `node.index = -1` and
`return this.nodes.splice(idx, 1)` (the array of removed elements); else
`return null`.  `getIndex` never returns an integer below `-1`, so in the
splice branch `idx.toNat` is the JS index. -/
def remove (h : Heap) (self other : Nat) : Except JsError (Heap × JsValue) :=
  match h[self]?, h[other]? with
  | some d, some _ =>
    let h1 := h.set self { d with nodes := some (d.nodes.getD []) }
    let r := getIndex h1 other
    if r.1 = -1 then .ok (r.2, .nullv)
    else
      let h3 := setIndex r.2 other (-1)
      match h3[self]? with
      | some d3 =>
        let l := d3.nodes.getD []
        let s := splice1 l r.1.toNat
        .ok (h3.set self { d3 with nodes := some s.1 }, .arr s.2)
      | none => .error .invalidArgument
  | _, _ => .error .invalidArgument

/-- `get prev()` (src/index.js:372): when `siblings` is an array,
`this.siblings[this.index - 1] || this.parent.prev`, else `null`.  The
recursion climbs the parent chain; `fuel` bounds it (a parent chain in a
heap can be cyclic, where the JS recursion would not terminate).  The heap
result carries the `index` getters' cache writes. -/
def prevNode : Nat → Heap → Nat → Option Nat × Heap
  | 0, h, _ => (none, h)
  | fuel + 1, h, n =>
    match siblingsOf h n with
    | none => (none, h)
    | some sibs =>
      let r := getIndex h n
      match jsGet sibs (r.1 - 1) with
      | some m => (some m, r.2)
      | none =>
        match (r.2[n]?).bind NodeData.parent with
        | some p => prevNode fuel r.2 p
        | none => (none, r.2)

/-- `get next()` (src/index.js:399): when `siblings` is an array,
`this.siblings[this.index + 1] || this.parent.next`, else `null`. -/
def nextNode : Nat → Heap → Nat → Option Nat × Heap
  | 0, h, _ => (none, h)
  | fuel + 1, h, n =>
    match siblingsOf h n with
    | none => (none, h)
    | some sibs =>
      let r := getIndex h n
      match jsGet sibs (r.1 + 1) with
      | some m => (some m, r.2)
      | none =>
        match (r.2[n]?).bind NodeData.parent with
        | some p => nextNode fuel r.2 p
        | none => (none, r.2)

/-- The `type` of the node a navigation step returned, read from the heap. -/
def typeAt (h : Heap) (o : Option Nat) : Option String :=
  o.bind fun i => (h[i]?).bind NodeData.type

/-- One public mutation call, by receiver and argument ids. -/
inductive Op where
  | push (self other : Nat)
  | unshift (self other : Nat)
  | pop (self : Nat)
  | shift (self : Nat)
  | remove (self other : Nat)
  deriving DecidableEq, Repr

/-- Run one operation; a thrown `expect` error leaves the heap as it was
(`expect` precedes every mutation in the source, so a failing call performs
none). -/
def step (h : Heap) : Op → Heap
  | .push s c => match push h s c with | .ok r => r.1 | .error _ => h
  | .unshift s c => match unshift h s c with | .ok r => r.1 | .error _ => h
  | .pop s => (pop h s).1
  | .shift s => (shift h s).1
  | .remove s c => match remove h s c with | .ok r => r.1 | .error _ => h

/-- Run a sequence of public operations. -/
def run (h : Heap) : List Op → Heap
  | [] => h
  | op :: ops => run (step h op) ops

/-! ### The read-only accessor setters (src/index.js:311, 369, 396)

Each setter body is a single unconditional `throw`; in the embedding the
assignment returns the `invalidOperation` error and no heap, so a caller
that catches the error continues with the heap it had — the assignment
has no effect. -/

/-- `set siblings(val)`: `throw new Error('node.siblings is a getter and
cannot be defined')`. -/
def setSiblings (_h : Heap) (_n : Nat) (_v : JsValue) : Except JsError Heap :=
  .error .invalidOperation

/-- `set prev(val)`: `throw new Error('node.prev is a getter and cannot be
defined')`. -/
def setPrev (_h : Heap) (_n : Nat) (_v : JsValue) : Except JsError Heap :=
  .error .invalidOperation

/-- `set next(val)`: `throw new Error('node.next is a getter and cannot be
defined')`. -/
def setNext (_h : Heap) (_n : Nat) (_v : JsValue) : Except JsError Heap :=
  .error .invalidOperation

/-! ### The constructor's merge branch (src/index.js:24, 478, 486, 490)

For claim C6 the constructor is modelled at the level of the enumerable
fields it writes: a structured first argument is a list of key/value pairs
(JS object literals keep insertion order), and `assign` copies onto the node
every key that is not an own property name of `Node.prototype`. -/

/-- A field value of the incoming token object.  `nullLit`/`undefLit` are the
JS `null`/`undefined` written by the scalar branch when an argument is
absent; `obj` stands for any object-valued field. -/
inductive JsLit where
  | str (s : String)
  | num (n : Int)
  | obj
  | nullLit
  | undefLit
  deriving DecidableEq, Repr

/-- `Object.getOwnPropertyNames(Node.prototype)` for the class of
src/index.js: `constructor` plus every method, and one name per
getter/setter pair, in declaration order (`isNode` is static, so not on the
prototype). -/
def protoNames : List String :=
  ["constructor", "clone", "define", "isEmpty", "push", "unshift", "pop",
   "shift", "remove", "find", "isType", "hasType", "siblings", "index",
   "prev", "next", "first", "last", "scope"]

/-- `contains(arr, key)` (src/index.js:486): `arr.indexOf(key) !== -1`. -/
def containsKey (arr : List String) (key : String) : Bool :=
  arr.contains key

/-- `assign(node, token)` (src/index.js:490): for each key of the token, the
field is written onto the node unless the key is an own property name of
the prototype.  The result is the list of fields actually written. -/
def assignFields (token : List (String × JsLit)) : List (String × JsLit) :=
  token.filter fun kv => !containsKey protoNames kv.1

/-- The constructor's first argument: a string, a structured object, or
absent. -/
inductive CtorVal where
  | str (s : String)
  | obj (fields : List (String × JsLit))
  | undef
  deriving DecidableEq, Repr

/-- The constructor's second argument: a string type, some truthy non-string
value (such as a parent node), or absent/falsy. -/
inductive CtorType where
  | str (s : String)
  | nodeRef (id : Nat)
  | undef
  deriving DecidableEq, Repr

/-- What the constructor stored: the `parent` back-reference and the
enumerable fields written on the new node. -/
structure CtorResult where
  parent : Option Nat
  fields : List (String × JsLit)
  deriving DecidableEq, Repr

/-- The constructor (src/index.js:24): when the second argument is not a
string it becomes the parent if truthy (`parent = type || parent`) and the
type is nulled; then the merge branch runs only when the (normalized) type
is not a string and the first argument is an object, copying its fields
through `assign`; otherwise `this.type = type; this.val = val`. -/
def ctorNode (value : CtorVal) (type2 : CtorType) (parent : Option Nat) : CtorResult :=
  let norm : Option String × Option Nat :=
    match type2 with
    | .str s => (some s, parent)
    | .nodeRef p => (none, some p)
    | .undef => (none, parent)
  match norm.1, value with
  | none, .obj fs => { parent := norm.2, fields := assignFields fs }
  | t, v =>
    { parent := norm.2
      fields :=
        [("type", match t with | some s => JsLit.str s | none => JsLit.nullLit),
         ("val", match v with
                 | .str s => JsLit.str s
                 | .obj _ => JsLit.obj
                 | .undef => JsLit.undefLit)] }

/-! ### Concrete scenario heaps for the spec's worked examples -/

/-- Claim C1's tree: a parent of type `foo` (id 0) with children `a, b, c, d`
(ids 1–4), built by four `push` calls on freshly constructed nodes. -/
def c1Heap : Heap :=
  run [mkTypeNode "foo", mkTypeNode "a", mkTypeNode "b", mkTypeNode "c", mkTypeNode "d"]
    [Op.push 0 1, Op.push 0 2, Op.push 0 3, Op.push 0 4]

/-- The heap and return value of `remove(b)` on `c1Heap` (the call succeeds;
the error fallback is never taken). -/
def c1Removed : Heap × JsValue :=
  match remove c1Heap 0 2 with
  | .ok r => r
  | .error _ => (c1Heap, .undef)

/-- Claim C2's tree, built exactly as the repository's own test does:
`parent` (id 0) with children `[a, foo, z]` (ids 1, 3, 2) and `foo` with
children `[bar, baz]` (ids 4, 5). -/
def c2Heap : Heap :=
  run [mkTypeNode "parent", mkTypeNode "a", mkTypeNode "z", mkTypeNode "foo",
       mkTypeNode "bar", mkTypeNode "baz"]
    [Op.push 3 4, Op.push 3 5, Op.push 0 1, Op.push 0 3, Op.push 0 2]

/-- Reading `b.index` after the removal (the getter's cache write threads the
heap into the following reads). -/
def c1Read1 : Int × Heap := getIndex c1Removed.1 2

/-- Reading `a.index` next. -/
def c1Read2 : Int × Heap := getIndex c1Read1.2 1

/-- Reading `c.index` next. -/
def c1Read3 : Int × Heap := getIndex c1Read2.2 3

/-- Reading `d.index` next. -/
def c1Read4 : Int × Heap := getIndex c1Read3.2 4

/-- The second `remove(b)` call, after all the reads.  The fallback value
`.undef` is only a placeholder for the error case, which is not taken (the
theorem's `.nullv` result shows it). -/
def c1Second : Heap × JsValue :=
  match remove c1Read4.2 0 2 with
  | .ok r => r
  | .error _ => (c1Read4.2, .undef)

/-! ### Deep clone (src/index.js:76, claim C8) -/

mutual

/-- The enumerable tree structure of a node: exactly what `clone-deep`
reads and copies — the enumerable fields `type`, `val` and `nodes`
(recursively; `none` children = no `nodes` array).  `parent`, `count` and
the `idx` cache are non-enumerable (installed with `define`), so the deep
copy never reads them. -/
inductive PTree where
  | mk (type : Option String) (val : Option String) (children : Option PForest)

/-- A list of subtrees. -/
inductive PForest where
  | nil
  | cons (t : PTree) (ts : PForest)

end

/-- Extraction of a forest of subtrees from a list of child ids, given the
extraction function for one node. -/
def mapForest (f : Nat → Option PTree) : List Nat → Option PForest
  | [] => some PForest.nil
  | i :: is =>
    match f i, mapForest f is with
    | some t, some ts => some (PForest.cons t ts)
    | _, _ => none

/-- The enumerable structure reachable from node `n` — what `clone(this,
true)` reads.  `fuel` bounds the recursion depth (a heap can hold a cyclic
`nodes` chain, on which the JS clone would not terminate); extraction is
`none` when the fuel runs out or a child id dangles. -/
def toTree : Nat → Heap → Nat → Option PTree
  | 0, _, _ => none
  | fuel + 1, h, n =>
    (h[n]?).bind fun d =>
      match d.nodes with
      | none => some (PTree.mk d.type d.val none)
      | some ids =>
        (mapForest (toTree fuel h) ids).map fun f => PTree.mk d.type d.val (some f)

mutual

/-- Materialize a cloned tree as fresh nodes appended to the heap.  Every
clone node is built the way the copy is in JS — `new Node()` (or `new
this.constructor(...)` for the root) followed by copying the enumerable
fields — so its `parent` is undefined, `count` is 0 and it has no `idx`;
its children are the freshly materialized subtrees.  Returns the heap and
the new node's id. -/
def allocTree (h : Heap) : PTree → Heap × Nat
  | .mk t v none =>
    (h ++ [{ type := t, val := v, nodes := none, parent := none, idx := none, count := 0 }],
     h.length)
  | .mk t v (some f) =>
    let r := allocForest h f
    (r.1 ++ [{ type := t, val := v, nodes := some r.2, parent := none, idx := none, count := 0 }],
     r.1.length)

/-- Materialize a forest of subtrees left to right. -/
def allocForest (h : Heap) : PForest → Heap × List Nat
  | .nil => (h, [])
  | .cons t ts =>
    let a := allocTree h t
    let b := allocForest a.1 ts
    (b.1, a.2 :: b.2)

end

/-- `clone()` (src/index.js:76): `new this.constructor(clone(this, true))` —
deep-copy the enumerable structure (`toTree`) and rebuild it from fresh
node objects (`allocTree`).  The source makes one intermediate deep copy
whose enumerable fields `assign` then copies onto the final node; the
composite produces exactly one fresh tree.  (The non-enumerable `token`
field, and the corner case where a first-touch `index` read has created an
enumerable `idx` property that the copy would also carry, are not
modelled: neither affects `type`, `val`, `nodes` or `parent`.) -/
def cloneNode (fuel : Nat) (h : Heap) (n : Nat) : Option (Heap × Nat) :=
  (toTree fuel h n).map fun t => allocTree h t

mutual

/-- The recursion depth of a tree. -/
def heightT : PTree → Nat
  | .mk _ _ none => 1
  | .mk _ _ (some f) => heightF f + 1

/-- The maximal subtree depth of a forest. -/
def heightF : PForest → Nat
  | .nil => 0
  | .cons t ts => max (heightT t) (heightF ts)

end

/-- A two-node tree for the index and insertion claims: a parent (id 0) of
type `foo` with the single child `bar` (id 1). -/
def c4Heap : Heap :=
  run [mkTypeNode "foo", mkTypeNode "bar"] [Op.push 0 1]

/-- The clone of the two-node tree (fuel 2 covers its depth); the fallback
pair is never used, as the theorems' computed results show. -/
def c8Clone : Heap × Nat :=
  (cloneNode 2 c4Heap 0).getD ([], 0)

/-- The heap after cloning the two-node tree, written out: the original two
entries followed by the fresh child (id 2) and the fresh root (id 3). -/
def c8WitnessHeap : Heap :=
  c4Heap ++
    [{ type := some "bar", val := none, nodes := none, parent := none, idx := none, count := 0 },
     { type := some "foo", val := none, nodes := some [2], parent := none, idx := none,
       count := 0 }]

/-- The heap reached by `foo.push(a); foo.pop()`: `a`'s `parent` still points
at `foo`, but `foo.nodes` is `[]` again. -/
def c3Heap : Heap :=
  run [mkTypeNode "foo", mkTypeNode "a"] [Op.push 0 1, Op.pop 0]

/-- The claimed containment invariant: every node whose `parent` reference is
non-null occurs exactly once in that parent's children sequence. -/
def parentChildInv (h : Heap) : Prop :=
  ∀ n d p, h[n]? = some d → d.parent = some p →
    (((h[p]?).bind NodeData.nodes).getD []).count n = 1

/-- `bar.prev` on the C2 tree. -/
def c2PrevBar : Option Nat × Heap := prevNode 8 c2Heap 4

/-- `baz.prev` next. -/
def c2PrevBaz : Option Nat × Heap := prevNode 8 c2PrevBar.2 5

/-- `baz.next` next. -/
def c2NextBaz : Option Nat × Heap := nextNode 8 c2PrevBaz.2 5

/-! ### Count accounting (claim C10) -/

/-- The non-enumerable `count` field of node `n` (0 when the id resolves to
no node). -/
def countOf (h : Heap) (n : Nat) : Int :=
  ((h[n]?).map NodeData.count).getD 0

/-- How one public call changes `n.count`: a successful `push`/`unshift`
with receiver `n` adds 1 (success = receiver and argument are nodes, i.e.
resolve in the heap — `expect` throws before `count++` otherwise); a
`pop`/`shift` on `n` subtracts 1 unconditionally (even with no children);
`remove` never touches `count`.  `len` is the heap size, which no
operation changes. -/
def opDelta (len : Nat) (n : Nat) : Op → Int
  | .push s c => if s = n ∧ s < len ∧ c < len then 1 else 0
  | .unshift s c => if s = n ∧ s < len ∧ c < len then 1 else 0
  | .pop s => if s = n ∧ s < len then -1 else 0
  | .shift s => if s = n ∧ s < len then -1 else 0
  | .remove _ _ => 0

/-- The sum of `opDelta` over a call sequence: the number of successful
`push`/`unshift` calls on `n` minus the number of `pop`/`shift` calls
on `n`. -/
def opsDelta (len : Nat) (n : Nat) : List Op → Int
  | [] => 0
  | op :: ops => opDelta len n op + opsDelta len n ops

/-- A one-node heap: a single constructed node of type `foo`, used to show
`count` going negative while `nodes` stays absent. -/
def soloHeap : Heap := [mkTypeNode "foo"]

/-! ### Type matchers (src/unnamed/part_001:464) -/

/-- A value passed as a type matcher, classified the way `kind-of` classifies
it in the helper's `switch`: a string, a regexp (modelled by its `test`
behaviour on `node.type`), an array, or any value of another kind —
in particular a `Node` object is `other`. -/
inductive Matcher where
  | str (s : String)
  | re (test : Option String → Bool)
  | arr (ms : List Matcher)
  | other

mutual

/-- The `isType(node, type)` helper of src/unnamed/part_001:464.  A string
matcher is `node.type === type`; a regexp matcher is `type.test(node.type)`;
an array runs the loop below; any other kind throws `TypeError`
("expected \x22type\x22 to be an array, string or regexp"). -/
def isTypeFn (t : Option String) : Matcher → Except JsError Bool
  | .str s => .ok (decide (t = some s))
  | .re test => .ok (test t)
  | .arr ms => isTypeArr t ms
  | .other => .error .typeError
termination_by m => sizeOf m
decreasing_by all_goals (simp_wf <;> omega)

/-- The array loop of the helper: `for (const key of type) if
(node.isType(node, key)) return true; return false`.  The call is to the
one-argument method `isType(type)`, so its first argument — the node object
itself, of kind `object` — arrives as the matcher and the element `k` is
dropped: each iteration evaluates the helper at `Matcher.other`. -/
def isTypeArr (t : Option String) : List Matcher → Except JsError Bool
  | [] => .ok false
  | k :: rest =>
    match isTypeFn t Matcher.other with
    | .ok true => .ok true
    | .ok false => isTypeArr t rest
    | .error e => .error e
termination_by ms => sizeOf ms
decreasing_by
  all_goals simp_wf
  all_goals first
    | omega
    | (cases k <;> simp <;> omega)

end

mutual

/-- Modelled from the spec (§4.4 type-matcher semantics, quoted by the
claim): a sequence matcher succeeds exactly when ANY of its elements
matches under the same rules applied recursively.  This is the behaviour
the helper's own doc example (`node.isType(['foo', 'bar']) //=> true`)
describes, for comparison with `isTypeFn`. -/
def isTypeSpec (t : Option String) : Matcher → Except JsError Bool
  | .str s => .ok (decide (t = some s))
  | .re test => .ok (test t)
  | .arr ms => isTypeSpecArr t ms
  | .other => .error .typeError

/-- The spec's any-of rule over the elements of a sequence matcher. -/
def isTypeSpecArr (t : Option String) : List Matcher → Except JsError Bool
  | [] => .ok false
  | m :: rest =>
    match isTypeSpec t m with
    | .ok true => .ok true
    | .ok false => isTypeSpecArr t rest
    | .error e => .error e

end

/-! ## Theorems -/

/-- C7 (code bug): on a node of type `bar`, the matcher `['foo', 'bar']`
should match (the method's own doc example says so, and the spec's any-of
rule — `isTypeSpec` — returns true), but the helper of
src/unnamed/part_001 throws `TypeError`: its loop calls
`node.isType(node, key)`, so the node object itself is tested as the
matcher and falls into the throwing default case. -/
theorem c7_array_matcher_throws :
    isTypeFn (some "bar") (Matcher.arr [Matcher.str "foo", Matcher.str "bar"]) =
      .error JsError.typeError ∧
    isTypeSpec (some "bar") (Matcher.arr [Matcher.str "foo", Matcher.str "bar"]) =
      .ok true := by
  constructor
  · simp [isTypeFn, isTypeArr]
  · simp [isTypeSpec, isTypeSpecArr]

/-- Setting an entry whose `count` differs by `k` shifts `countOf` at that id
by `k` and leaves every other id's count alone. -/
theorem countOf_set_count {h : Heap} {s : Nat} {d e : NodeData} {k : Int}
    (hs : h[s]? = some d) (hcnt : e.count = d.count + k) (n : Nat) :
    countOf (h.set s e) n = countOf h n + (if s = n then k else 0) := by
  unfold countOf
  by_cases hsn : s = n
  · subst hsn
    obtain ⟨hlt, -⟩ := List.getElem?_eq_some_iff.mp hs
    rw [List.getElem?_set_self hlt, hs]
    simp [hcnt]
  · rw [List.getElem?_set_ne hsn]
    simp [hsn]

/-- Setting an entry that keeps its `count` leaves `countOf` unchanged
everywhere. -/
theorem countOf_set_eq {h : Heap} {s : Nat} {d e : NodeData}
    (hs : h[s]? = some d) (hcnt : e.count = d.count) (n : Nat) :
    countOf (h.set s e) n = countOf h n := by
  have := countOf_set_count (e := e) (k := 0) hs (by omega) n
  simpa using this

/-- The `index` getter either leaves the heap alone (cache hit) or rewrites
exactly the receiver's `idx` cache to the returned index. -/
theorem getIndex_snd_cases (h : Heap) (n : Nat) :
    (getIndex h n).2 = h ∨
    ∃ d, h[n]? = some d ∧
      (getIndex h n).2 = h.set n { d with idx := some (getIndex h n).1 } := by
  unfold getIndex recomputeIdx
  repeat' split
  all_goals first
    | exact Or.inl rfl
    | exact Or.inr ⟨_, by assumption, rfl⟩

/-- The `index` setter either leaves the heap alone (unresolvable id) or
rewrites exactly the receiver's `idx` cache. -/
theorem setIndex_cases (h : Heap) (n : Nat) (v : Int) :
    setIndex h n v = h ∨
    ∃ d, h[n]? = some d ∧ setIndex h n v = h.set n { d with idx := some v } := by
  unfold setIndex
  repeat' split
  all_goals first
    | exact Or.inl rfl
    | exact Or.inr ⟨_, by assumption, rfl⟩

/-- The `index` getter only rewrites the receiver's `idx` cache: every
node's `count` is untouched. -/
theorem getIndex_countOf (h : Heap) (n m : Nat) :
    countOf (getIndex h n).2 m = countOf h m := by
  rcases getIndex_snd_cases h n with he | ⟨d, hd, he⟩
  · rw [he]
  · rw [he]
    exact countOf_set_eq (e := { d with idx := some (getIndex h n).1 }) hd rfl m

/-- The `index` setter only rewrites the `idx` cache: every node's `count`
is untouched. -/
theorem setIndex_countOf (h : Heap) (n : Nat) (v : Int) (m : Nat) :
    countOf (setIndex h n v) m = countOf h m := by
  rcases setIndex_cases h n v with he | ⟨d, hd, he⟩
  · rw [he]
  · rw [he]
    exact countOf_set_eq (e := { d with idx := some v }) hd rfl m

/-- `setIndex` preserves the heap size. -/
theorem setIndex_length (h : Heap) (n : Nat) (v : Int) :
    (setIndex h n v).length = h.length := by
  rcases setIndex_cases h n v with he | ⟨d, hd, he⟩ <;> simp [he]

/-- The `index` getter preserves the heap size. -/
theorem getIndex_length (h : Heap) (n : Nat) :
    (getIndex h n).2.length = h.length := by
  rcases getIndex_snd_cases h n with he | ⟨d, hd, he⟩ <;> simp [he]

/-- When both ids are nodes, `push` succeeds: the child's entry gets
`parent := self` first, and the receiver's entry — re-read after that
write, which matters when the receiver is the child — gets the child
appended to `nodes` and `count` incremented. -/
theorem push_ok {h : Heap} {s c : Nat} {d0 cd : NodeData}
    (hs : h[s]? = some d0) (hc : h[c]? = some cd) :
    ∃ D, (h.set c { cd with parent := some s })[s]? = some D ∧
      D.count = d0.count ∧
      D.nodes = (if s = c then cd.nodes else d0.nodes) ∧
      D.parent = (if s = c then some s else d0.parent) ∧
      push h s c = .ok ((h.set c { cd with parent := some s }).set s
        { D with nodes := some (D.nodes.getD [] ++ [c]), count := D.count + 1 },
        ((D.nodes.getD [] ++ [c]).length : Int)) := by
  by_cases hsc : s = c
  · subst hsc
    obtain ⟨hslt, -⟩ := List.getElem?_eq_some_iff.mp hs
    have hdc : d0 = cd := by
      rw [hs] at hc
      exact Option.some.inj hc
    subst hdc
    have hD : (h.set s { d0 with parent := some s })[s]? = some { d0 with parent := some s } :=
      List.getElem?_set_self hslt
    refine ⟨{ d0 with parent := some s }, hD, rfl, by simp, by simp, ?_⟩
    unfold push
    simp only [hs, hD]
  · have hD : (h.set c { cd with parent := some s })[s]? = some d0 := by
      rw [List.getElem?_set_ne (fun e => hsc e.symm)]
      exact hs
    refine ⟨d0, hD, rfl, by simp [hsc], by simp [hsc], ?_⟩
    unfold push
    simp only [hs, hc, hD]

/-- When both ids are nodes, `unshift` succeeds, prepending instead. -/
theorem unshift_ok {h : Heap} {s c : Nat} {d0 cd : NodeData}
    (hs : h[s]? = some d0) (hc : h[c]? = some cd) :
    ∃ D, (h.set c { cd with parent := some s })[s]? = some D ∧
      D.count = d0.count ∧
      D.nodes = (if s = c then cd.nodes else d0.nodes) ∧
      D.parent = (if s = c then some s else d0.parent) ∧
      unshift h s c = .ok ((h.set c { cd with parent := some s }).set s
        { D with nodes := some (c :: D.nodes.getD []), count := D.count + 1 },
        ((c :: D.nodes.getD []).length : Int)) := by
  by_cases hsc : s = c
  · subst hsc
    obtain ⟨hslt, -⟩ := List.getElem?_eq_some_iff.mp hs
    have hdc : d0 = cd := by
      rw [hs] at hc
      exact Option.some.inj hc
    subst hdc
    have hD : (h.set s { d0 with parent := some s })[s]? = some { d0 with parent := some s } :=
      List.getElem?_set_self hslt
    refine ⟨{ d0 with parent := some s }, hD, rfl, by simp, by simp, ?_⟩
    unfold unshift
    simp only [hs, hD]
  · have hD : (h.set c { cd with parent := some s })[s]? = some d0 := by
      rw [List.getElem?_set_ne (fun e => hsc e.symm)]
      exact hs
    refine ⟨d0, hD, rfl, by simp [hsc], by simp [hsc], ?_⟩
    unfold unshift
    simp only [hs, hc, hD]

/-- `push` changes exactly the receiver's count, by +1, when both ids are
nodes; a failed `expect` changes nothing. -/
theorem push_countOf (h : Heap) (s c n : Nat) :
    countOf (step h (Op.push s c)) n
      = countOf h n + (if s = n ∧ s < h.length ∧ c < h.length then 1 else 0) := by
  cases hs : h[s]? with
  | none =>
    have hlen : ¬ s < h.length := by
      have := List.getElem?_eq_none_iff.mp hs
      omega
    unfold step push
    simp only [hs]
    simp [hlen]
  | some d0 =>
    obtain ⟨hslt, -⟩ := List.getElem?_eq_some_iff.mp hs
    cases hc : h[c]? with
    | none =>
      have hlen : ¬ c < h.length := by
        have := List.getElem?_eq_none_iff.mp hc
        omega
      unfold step push
      simp only [hs, hc]
      simp [hlen]
    | some cd =>
      obtain ⟨hclt, -⟩ := List.getElem?_eq_some_iff.mp hc
      obtain ⟨D, hD, hDcnt, -, -, hpush⟩ := push_ok hs hc
      simp only [step]
      simp only [hpush]
      rw [countOf_set_count
        (e := { D with nodes := some (D.nodes.getD [] ++ [c]), count := D.count + 1 })
        (k := 1) hD rfl n]
      rw [countOf_set_eq (e := { cd with parent := some s }) hc rfl n]
      by_cases hsn : s = n
      · subst hsn
        simp [hslt, hclt]
      · simp [hsn]

/-- `unshift` changes exactly the receiver's count, by +1, when both ids are
nodes. -/
theorem unshift_countOf (h : Heap) (s c n : Nat) :
    countOf (step h (Op.unshift s c)) n
      = countOf h n + (if s = n ∧ s < h.length ∧ c < h.length then 1 else 0) := by
  cases hs : h[s]? with
  | none =>
    have hlen : ¬ s < h.length := by
      have := List.getElem?_eq_none_iff.mp hs
      omega
    unfold step unshift
    simp only [hs]
    simp [hlen]
  | some d0 =>
    obtain ⟨hslt, -⟩ := List.getElem?_eq_some_iff.mp hs
    cases hc : h[c]? with
    | none =>
      have hlen : ¬ c < h.length := by
        have := List.getElem?_eq_none_iff.mp hc
        omega
      unfold step unshift
      simp only [hs, hc]
      simp [hlen]
    | some cd =>
      obtain ⟨hclt, -⟩ := List.getElem?_eq_some_iff.mp hc
      obtain ⟨D, hD, hDcnt, -, -, hpush⟩ := unshift_ok hs hc
      simp only [step]
      simp only [hpush]
      rw [countOf_set_count
        (e := { D with nodes := some (c :: D.nodes.getD []), count := D.count + 1 })
        (k := 1) hD rfl n]
      rw [countOf_set_eq (e := { cd with parent := some s }) hc rfl n]
      by_cases hsn : s = n
      · subst hsn
        simp [hslt, hclt]
      · simp [hsn]

/-- `pop` decrements the receiver's count unconditionally (also with no
children) and touches no other count. -/
theorem pop_countOf (h : Heap) (s n : Nat) :
    countOf (step h (Op.pop s)) n
      = countOf h n + (if s = n ∧ s < h.length then -1 else 0) := by
  cases hs : h[s]? with
  | none =>
    have hlen : ¬ s < h.length := by
      have := List.getElem?_eq_none_iff.mp hs
      omega
    unfold step pop
    simp only [hs]
    simp [hlen]
  | some d =>
    obtain ⟨hslt, -⟩ := List.getElem?_eq_some_iff.mp hs
    cases hnodes : d.nodes with
    | none =>
      unfold step pop
      simp only [hs, hnodes]
      rw [countOf_set_count (e := { d with nodes := none, count := d.count - 1 }) (k := -1) hs
        (by show d.count - 1 = d.count + (-1); omega) n]
      by_cases hsn : s = n
      · subst hsn
        simp [hslt]
      · simp [hsn]
    | some l =>
      unfold step pop
      simp only [hs, hnodes]
      rw [countOf_set_count (e := { d with count := d.count - 1, nodes := some l.dropLast })
        (k := -1) hs (by show d.count - 1 = d.count + (-1); omega) n]
      by_cases hsn : s = n
      · subst hsn
        simp [hslt]
      · simp [hsn]

/-- `shift` decrements the receiver's count unconditionally and touches no
other count. -/
theorem shift_countOf (h : Heap) (s n : Nat) :
    countOf (step h (Op.shift s)) n
      = countOf h n + (if s = n ∧ s < h.length then -1 else 0) := by
  cases hs : h[s]? with
  | none =>
    have hlen : ¬ s < h.length := by
      have := List.getElem?_eq_none_iff.mp hs
      omega
    unfold step shift
    simp only [hs]
    simp [hlen]
  | some d =>
    obtain ⟨hslt, -⟩ := List.getElem?_eq_some_iff.mp hs
    cases hnodes : d.nodes with
    | none =>
      unfold step shift
      simp only [hs, hnodes]
      rw [countOf_set_count (e := { d with nodes := none, count := d.count - 1 }) (k := -1) hs
        (by show d.count - 1 = d.count + (-1); omega) n]
      by_cases hsn : s = n
      · subst hsn
        simp [hslt]
      · simp [hsn]
    | some l =>
      unfold step shift
      simp only [hs, hnodes]
      rw [countOf_set_count (e := { d with count := d.count - 1, nodes := some l.tail })
        (k := -1) hs (by show d.count - 1 = d.count + (-1); omega) n]
      by_cases hsn : s = n
      · subst hsn
        simp [hslt]
      · simp [hsn]

/-- `remove` never touches any `count`: its writes change only `nodes` and
`idx` fields. -/
theorem remove_countOf (h : Heap) (s c n : Nat) :
    countOf (step h (Op.remove s c)) n = countOf h n := by
  cases hs : h[s]? with
  | none =>
    unfold step remove
    simp only [hs]
  | some d =>
    cases hc : h[c]? with
    | none =>
      unfold step remove
      simp only [hs, hc]
    | some cd =>
      unfold step remove
      simp only [hs, hc]
      have h1cnt : countOf (h.set s { d with nodes := some (d.nodes.getD []) }) n
          = countOf h n := countOf_set_eq (e := { d with nodes := some (d.nodes.getD []) }) hs rfl n
      by_cases hidx :
          (getIndex (h.set s { d with nodes := some (d.nodes.getD []) }) c).1 = -1
      · rw [if_pos hidx]
        rw [getIndex_countOf, h1cnt]
      · rw [if_neg hidx]
        cases hs3 :
            (setIndex (getIndex (h.set s { d with nodes := some (d.nodes.getD []) }) c).2
              c (-1))[s]? with
        | none => simp only [hs3]
        | some d3 =>
          simp only [hs3]
          rw [countOf_set_eq (e := { d3 with nodes := some (splice1 (d3.nodes.getD [])
            (getIndex (h.set s { d with nodes := some (d.nodes.getD []) }) c).1.toNat).1 })
            hs3 rfl n, setIndex_countOf, getIndex_countOf, h1cnt]

/-- Every public operation preserves the heap size (no operation creates or
destroys node objects). -/
theorem step_length (h : Heap) (op : Op) : (step h op).length = h.length := by
  cases op with
  | push s c =>
    cases hs : h[s]? with
    | none =>
      unfold step push
      simp only [hs]
    | some d0 =>
      cases hc : h[c]? with
      | none =>
        unfold step push
        simp only [hs, hc]
      | some cd =>
        obtain ⟨D, hD, -, -, -, hpush⟩ := push_ok hs hc
        simp only [step]
        simp only [hpush]
        simp
  | unshift s c =>
    cases hs : h[s]? with
    | none =>
      unfold step unshift
      simp only [hs]
    | some d0 =>
      cases hc : h[c]? with
      | none =>
        unfold step unshift
        simp only [hs, hc]
      | some cd =>
        obtain ⟨D, hD, -, -, -, hpush⟩ := unshift_ok hs hc
        simp only [step]
        simp only [hpush]
        simp
  | pop s =>
    cases hs : h[s]? with
    | none =>
      unfold step pop
      simp only [hs]
    | some d =>
      cases hnodes : d.nodes with
      | none =>
        unfold step pop
        simp only [hs, hnodes]
        simp
      | some l =>
        unfold step pop
        simp only [hs, hnodes]
        simp
  | shift s =>
    cases hs : h[s]? with
    | none =>
      unfold step shift
      simp only [hs]
    | some d =>
      cases hnodes : d.nodes with
      | none =>
        unfold step shift
        simp only [hs, hnodes]
        simp
      | some l =>
        unfold step shift
        simp only [hs, hnodes]
        simp
  | remove s c =>
    cases hs : h[s]? with
    | none =>
      unfold step remove
      simp only [hs]
    | some d =>
      cases hc : h[c]? with
      | none =>
        unfold step remove
        simp only [hs, hc]
      | some cd =>
        unfold step remove
        simp only [hs, hc]
        by_cases hidx :
            (getIndex (h.set s { d with nodes := some (d.nodes.getD []) }) c).1 = -1
        · rw [if_pos hidx]
          rw [getIndex_length]
          simp
        · rw [if_neg hidx]
          cases hs3 :
              (setIndex (getIndex (h.set s { d with nodes := some (d.nodes.getD []) }) c).2
                c (-1))[s]? with
          | none => simp only [hs3]
          | some d3 =>
            simp only [hs3]
            simp [setIndex_length, getIndex_length]

/-- One public call shifts `countOf` by exactly `opDelta`. -/
theorem step_countOf (h : Heap) (op : Op) (n : Nat) :
    countOf (step h op) n = countOf h n + opDelta h.length n op := by
  cases op with
  | push s c => simpa [opDelta] using push_countOf h s c n
  | unshift s c => simpa [opDelta] using unshift_countOf h s c n
  | pop s => simpa [opDelta] using pop_countOf h s n
  | shift s => simpa [opDelta] using shift_countOf h s n
  | remove s c => simpa [opDelta] using remove_countOf h s c n

/-- C10: over any sequence of public calls, a node's hidden `count` field
moves by exactly the number of successful `push`/`unshift` calls on it
minus the number of `pop`/`shift` calls on it (`opsDelta`); `remove` never
decrements it.  Concretely, two `pop` calls on a childless constructed
node leave `count = -2` while `nodes` is still absent — `count` can go
negative and need not equal the children count. -/
theorem c10_count_accounting :
    (∀ (h : Heap) (ops : List Op) (n : Nat),
      countOf (run h ops) n = countOf h n + opsDelta h.length n ops) ∧
    countOf (run soloHeap [Op.pop 0, Op.pop 0]) 0 = -2 ∧
    ((run soloHeap [Op.pop 0, Op.pop 0])[0]?).bind NodeData.nodes = none := by
  refine ⟨?_, by decide, by decide⟩
  intro h ops n
  induction ops generalizing h with
  | nil => simp [run, opsDelta]
  | cons op ops ih =>
    rw [run, opsDelta, ih (step h op), step_length, step_countOf]
    omega

/-- `indexOf` returns the position of an element that occurs exactly once. -/
theorem jsIndexOf_of_unique (l : List Nat) (x : Nat) (i : Nat)
    (hmem : l[i]? = some x) (huniq : ∀ j, l[j]? = some x → j = i) :
    jsIndexOf l x = (i : Int) := by
  induction l generalizing i with
  | nil => simp at hmem
  | cons y l ih =>
    unfold jsIndexOf
    by_cases hyx : y = x
    · have h0 : 0 = i := huniq 0 (by simp [hyx])
      simp [hyx, ← h0]
    · cases i with
      | zero =>
        simp at hmem
        exact absurd hmem hyx
      | succ i' =>
        have hmem' : l[i']? = some x := by simpa using hmem
        have huniq' : ∀ j, l[j]? = some x → j = i' := by
          intro j hj
          have := huniq (j + 1) (by simpa using hj)
          omega
        have hr := ih i' hmem' huniq'
        simp only [hyx, if_false, hr]
        rw [if_neg (by omega)]
        omega

/-- `indexOf` returns -1 for an element that does not occur. -/
theorem jsIndexOf_of_not_mem (l : List Nat) (x : Nat) (hx : x ∉ l) :
    jsIndexOf l x = -1 := by
  induction l with
  | nil => rfl
  | cons y l ih =>
    have hyx : ¬ y = x := by
      rintro rfl
      exact hx (List.mem_cons_self y l)
    have hxl : x ∉ l := fun hm => hx (List.mem_cons_of_mem y hm)
    unfold jsIndexOf
    simp [hyx, ih hxl]

/-- Rewriting a field of a record to the value it already holds changes
nothing. -/
theorem nodeData_idx_eta (d : NodeData) (o : Option Int) (ho : d.idx = o) :
    ({ d with idx := o } : NodeData) = d := by
  cases d
  simp_all

/-- The `index` getter on a node that occurs exactly once, at position `i`,
in its parent's children: the read returns `i` — whatever the cache held —
and the heap afterwards differs from `h` at most in the node's `idx`
cache, which now holds `i`. -/
theorem getIndex_of_unique {h : Heap} {n p : Nat} {d pd : NodeData} {l : List Nat} {i : Nat}
    (hn : h[n]? = some d) (hp : d.parent = some p) (hpd : h[p]? = some pd)
    (hl : pd.nodes = some l) (hmem : l[i]? = some n)
    (huniq : ∀ j, l[j]? = some n → j = i) :
    (getIndex h n).1 = (i : Int) ∧
    (getIndex h n).2[n]? = some { d with idx := some (i : Int) } ∧
    ∀ m, m ≠ n → (getIndex h n).2[m]? = h[m]? := by
  obtain ⟨hnlt, -⟩ := List.getElem?_eq_some_iff.mp hn
  have hsib : siblingsOf h n = some l := by
    simp [siblingsOf, hn, hp, hpd, hl]
  have hji : jsIndexOf l n = (i : Int) := jsIndexOf_of_unique l n i hmem huniq
  cases hidx : d.idx with
  | none =>
    unfold getIndex recomputeIdx
    simp only [hn, hsib, hidx, hji]
    refine ⟨trivial, ?_, ?_⟩
    · rw [List.getElem?_set_self hnlt]
    · intro m hm
      exact List.getElem?_set_ne (fun e => hm e.symm)
  | some jdx =>
    by_cases hcond : jdx ≠ -1 ∧ jsGet l jdx = some n
    · obtain ⟨hne, hget⟩ := hcond
      have hj0 : ¬ jdx < 0 := by
        intro hneg
        unfold jsGet at hget
        rw [if_pos hneg] at hget
        exact Option.noConfusion hget
      have hat : l[jdx.toNat]? = some n := by
        unfold jsGet at hget
        rw [if_neg hj0] at hget
        exact hget
      have hji2 : jdx.toNat = i := huniq jdx.toNat hat
      have hjdx : jdx = (i : Int) := by omega
      subst hjdx
      unfold getIndex
      simp only [hn, hsib, hidx]
      rw [if_pos ⟨hne, hget⟩]
      refine ⟨rfl, ?_, fun m _ => rfl⟩
      rw [nodeData_idx_eta d (some (i : Int)) hidx]
      exact hn
    · unfold getIndex recomputeIdx
      simp only [hn, hsib, hidx]
      rw [if_neg hcond]
      simp only [hji]
      refine ⟨trivial, ?_, ?_⟩
      · rw [List.getElem?_set_self hnlt]
      · intro m hm
        exact List.getElem?_set_ne (fun e => hm e.symm)

/-- The `index` getter on a node that does not occur in its parent's
children (for instance after being spliced out): it returns -1 and caches
-1. -/
theorem getIndex_of_not_mem {h : Heap} {n p : Nat} {d pd : NodeData} {l : List Nat}
    (hn : h[n]? = some d) (hp : d.parent = some p) (hpd : h[p]? = some pd)
    (hl : pd.nodes = some l) (hmem : n ∉ l) :
    (getIndex h n).1 = -1 ∧
    (getIndex h n).2[n]? = some { d with idx := some (-1) } ∧
    ∀ m, m ≠ n → (getIndex h n).2[m]? = h[m]? := by
  obtain ⟨hnlt, -⟩ := List.getElem?_eq_some_iff.mp hn
  have hsib : siblingsOf h n = some l := by
    simp [siblingsOf, hn, hp, hpd, hl]
  have hji : jsIndexOf l n = -1 := jsIndexOf_of_not_mem l n hmem
  cases hidx : d.idx with
  | none =>
    unfold getIndex recomputeIdx
    simp only [hn, hsib, hidx, hji]
    refine ⟨trivial, ?_, ?_⟩
    · rw [List.getElem?_set_self hnlt]
    · intro m hm
      exact List.getElem?_set_ne (fun e => hm e.symm)
  | some jdx =>
    have hcond : ¬ (jdx ≠ -1 ∧ jsGet l jdx = some n) := by
      rintro ⟨-, hget⟩
      by_cases hneg : jdx < 0
      · unfold jsGet at hget
        rw [if_pos hneg] at hget
        exact Option.noConfusion hget
      · unfold jsGet at hget
        rw [if_neg hneg] at hget
        exact hmem (List.getElem?_mem hget)
    unfold getIndex recomputeIdx
    simp only [hn, hsib, hidx]
    rw [if_neg hcond]
    simp only [hji]
    refine ⟨trivial, ?_, ?_⟩
    · rw [List.getElem?_set_self hnlt]
    · intro m hm
      exact List.getElem?_set_ne (fun e => hm e.symm)

/-- C4: a node `n` occupying position `i` (its unique occurrence) in its
parent's children reads `n.index = i`; a repeated read with no structural
mutation in between returns the same value; and after an arbitrary value
`v` is assigned to `n.index` — which only writes the cache hint — the next
read still returns `i`, because the getter re-validates the hint against
the siblings sequence. -/
theorem c4_index_reads_structural_position
    (h : Heap) (n p : Nat) (d pd : NodeData) (l : List Nat) (i : Nat)
    (hn : h[n]? = some d) (hp : d.parent = some p) (hpd : h[p]? = some pd)
    (hl : pd.nodes = some l) (hmem : l[i]? = some n)
    (huniq : ∀ j, l[j]? = some n → j = i) :
    (getIndex h n).1 = (i : Int) ∧
    (getIndex (getIndex h n).2 n).1 = (getIndex h n).1 ∧
    ∀ v : Int, (getIndex (setIndex h n v) n).1 = (i : Int) := by
  obtain ⟨hfst, hself, hother⟩ := getIndex_of_unique hn hp hpd hl hmem huniq
  refine ⟨hfst, ?_, ?_⟩
  · -- second read: the heap after the first read still shows the same
    -- parent and children, so the getter again yields `i`
    have hpd' : (getIndex h n).2[p]? =
        some (if p = n then { d with idx := some (i : Int) } else pd) := by
      by_cases hpn : p = n
      · rw [hpn, hself]
        simp [hpn]
      · rw [hother p hpn]
        rw [hpd]
        simp [hpn]
    have hl' : (if p = n then { d with idx := some (i : Int) } else pd).nodes = some l := by
      by_cases hpn : p = n
      · simp only [hpn, if_true]
        have : pd = d := by
          rw [hpn] at hpd
          rw [hn] at hpd
          exact (Option.some.inj hpd).symm
        simp [← this, hl]
      · simp [hpn, hl]
    obtain ⟨hfst2, -, -⟩ := getIndex_of_unique (p := p) hself (by simp [hp]) hpd' hl' hmem huniq
    rw [hfst2, hfst]
  · intro v
    rcases setIndex_cases h n v with he | ⟨d2, hd2, he⟩
    · rw [he, hfst]
    · have hd2d : d2 = d := by
        rw [hn] at hd2
        exact (Option.some.inj hd2).symm
      subst hd2d
      have hn2 : (setIndex h n v)[n]? = some { d2 with idx := some v } := by
        rw [he]
        exact List.getElem?_set_self (by
          obtain ⟨hlt, -⟩ := List.getElem?_eq_some_iff.mp hn
          exact hlt)
      have hpd2 : (setIndex h n v)[p]? =
          some (if p = n then { d2 with idx := some v } else pd) := by
        by_cases hpn : p = n
        · rw [hpn, hn2]
          simp [hpn]
        · rw [he, List.getElem?_set_ne (fun e => hpn e.symm), hpd]
          simp [hpn]
      have hl2 : (if p = n then { d2 with idx := some v } else pd).nodes = some l := by
        by_cases hpn : p = n
        · simp only [hpn, if_true]
          have : pd = d2 := by
            rw [hpn] at hpd
            rw [hn] at hpd
            exact (Option.some.inj hpd).symm
          simp [← this, hl]
        · simp [hpn, hl]
      obtain ⟨hfst2, -, -⟩ := getIndex_of_unique (p := p) hn2 (by simp [hp]) hpd2 hl2 hmem huniq
      exact hfst2

/-- C1: for a node whose children are `[a, b, c, d]`, `remove(b)` yields
children `[a, c, d]`; the next reads give `b.index = -1`, `a.index = 0`,
`c.index = 1`, `d.index = 2`; and a second `remove(b)` returns the
"not found" sentinel `null` and leaves the children sequence `[a, c, d]`
unchanged (ids: parent 0, a 1, b 2, c 3, d 4). -/
theorem c1_remove_and_reindex :
    (c1Removed.1[0]?).bind NodeData.nodes = some [1, 3, 4] ∧
    c1Read1.1 = -1 ∧ c1Read2.1 = 0 ∧ c1Read3.1 = 1 ∧ c1Read4.1 = 2 ∧
    c1Second.2 = JsValue.nullv ∧
    (c1Second.1[0]?).bind NodeData.nodes = some [1, 3, 4] := by
  decide

/-- C2 (counterexample): the claim says `bar.prev` is null, but on the tree
`parent.children = [a, foo, z]`, `foo.children = [bar, baz]` the `prev`
getter falls through to `foo.prev`, which is the node `a` — not null. -/
theorem c2_barPrev_not_null : c2PrevBar.1 ≠ none := by decide

/-- C2 (amended): on that tree, `bar.prev` is the node of type `a` (the
fall-through to the parent's `prev`), `baz.prev` has type `bar`, and
`baz.next` has type `z` (fall-through to the parent's `next`). -/
theorem c2_cross_boundary_navigation :
    c2PrevBar.1 = some 1 ∧ typeAt c2PrevBar.2 c2PrevBar.1 = some "a" ∧
    c2PrevBaz.1 = some 4 ∧ typeAt c2PrevBaz.2 c2PrevBaz.1 = some "bar" ∧
    c2NextBaz.1 = some 2 ∧ typeAt c2NextBaz.2 c2NextBaz.1 = some "z" := by
  decide

/-- C9: assigning to `siblings`, `prev` or `next` on any node always throws
the `invalidOperation` error; no updated heap is produced, so the node's
state is unaffected. -/
theorem c9_accessor_setters_throw :
    ∀ (h : Heap) (n : Nat) (v : JsValue),
      setSiblings h n v = .error .invalidOperation ∧
      setPrev h n v = .error .invalidOperation ∧
      setNext h n v = .error .invalidOperation := by
  intro h n v
  exact ⟨rfl, rfl, rfl⟩

/-- C6 (counterexample): the claim says exactly the six computed property
names `siblings, index, prev, next, first, last` are dropped in the merge;
but a token with the single key `push` — which is none of those six — is
also silently dropped by the constructor's merge branch. -/
theorem c6_push_key_dropped :
    (ctorNode (.obj [("push", JsLit.str "x")]) .undef none).fields = [] ∧
    containsKey ["siblings", "index", "prev", "next", "first", "last"] "push" = false := by
  decide

/-- C6 (amended): the merge branch copies a token field onto the node exactly
when its key is not an own property name of `Node.prototype` — that list is
`constructor, clone, define, isEmpty, push, unshift, pop, shift, remove,
find, isType, hasType, siblings, index, prev, next, first, last, scope`, a
superset of the six computed names; and in this branch a truthy non-string
second argument is not ignored but stored as the parent reference. -/
theorem c6_merge_drops_all_prototype_names :
    ∀ (fs : List (String × JsLit)) (p : Option Nat) (kv : String × JsLit),
      (kv ∈ (ctorNode (.obj fs) .undef p).fields ↔
        kv ∈ fs ∧ containsKey protoNames kv.1 = false) ∧
      (ctorNode (.obj fs) .undef p).parent = p ∧
      (∀ q : Nat, (ctorNode (.obj fs) (.nodeRef q) p).parent = some q ∧
        (ctorNode (.obj fs) (.nodeRef q) p).fields = assignFields fs) ∧
      (∀ s, s ∈ ["siblings", "index", "prev", "next", "first", "last"] →
        containsKey protoNames s = true) := by
  intro fs p kv
  refine ⟨?_, rfl, fun q => ⟨rfl, rfl⟩, by decide⟩
  simp [ctorNode, assignFields, List.mem_filter]


/-- Witness for C4 at a concrete input: the single child `bar` (id 1) of
`foo` (id 0) sits at position 0, reads index 0, re-reads the same, and
still reads 0 after any value is assigned to its `index`. -/
theorem c4_index_witness :
    (getIndex c4Heap 1).1 = ((0 : Nat) : Int) ∧
    (getIndex (getIndex c4Heap 1).2 1).1 = (getIndex c4Heap 1).1 ∧
    ∀ v : Int, (getIndex (setIndex c4Heap 1 v) 1).1 = ((0 : Nat) : Int) :=
  c4_index_reads_structural_position c4Heap 1 0
    { type := some "bar", val := none, nodes := none, parent := some 0, idx := none, count := 0 }
    { type := some "foo", val := none, nodes := some [1], parent := none, idx := none, count := 1 }
    [1] 0 (by decide) (by decide) (by decide) (by decide) (by decide)
    (by
      intro j hj
      cases j with
      | zero => rfl
      | succ j => simp at hj)

/-- C5 (counterexample): the claim says a successful `remove` returns the
removed child; on children `[a, b, c, d]`, `remove(b)` returns the
one-element array `[b]` — the raw result of `splice` — which is a
different JS value from the node `b`. -/
theorem c5_remove_returns_array :
    c1Removed.2 = JsValue.arr [2] ∧ JsValue.arr [2] ≠ JsValue.node 2 := by
  decide

/-- C5 (amended): for a child `c` of `s` (`c.parent = s`, `s.nodes = l`,
`c ≠ s`): when `c` occurs exactly once in `l`, at `i`, `remove` splices it
out, caches `-1` in the child's `idx`, and returns the one-element array
`[c]` (not the bare child); when `c` does not occur, it returns `null` and
leaves the children sequence unchanged (the child's `idx` cache may still
be rewritten by the index read). -/
theorem c5_remove_behaviour (h : Heap) (s c : Nat) (d cd : NodeData) (l : List Nat)
    (hs : h[s]? = some d) (hl : d.nodes = some l)
    (hc : h[c]? = some cd) (hpar : cd.parent = some s) (hsc : s ≠ c) :
    (∀ i : Nat, l[i]? = some c → (∀ j, l[j]? = some c → j = i) →
      ∃ h', remove h s c = .ok (h', .arr [c]) ∧
        (h'[s]?).bind NodeData.nodes = some (l.take i ++ l.drop (i + 1)) ∧
        (h'[c]?).map NodeData.idx = some (some (-1))) ∧
    (c ∉ l →
      ∃ h', remove h s c = .ok (h', .nullv) ∧
        (h'[s]?).bind NodeData.nodes = some l) := by
  obtain ⟨hslt, -⟩ := List.getElem?_eq_some_iff.mp hs
  obtain ⟨hclt, -⟩ := List.getElem?_eq_some_iff.mp hc
  have h1s : (h.set s { d with nodes := some l })[s]? = some { d with nodes := some l } :=
    List.getElem?_set_self hslt
  have h1c : (h.set s { d with nodes := some l })[c]? = some cd := by
    rw [List.getElem?_set_ne hsc]
    exact hc
  constructor
  · intro i hmem huniq
    obtain ⟨hfst, hcself, hcother⟩ :=
      getIndex_of_unique (p := s) h1c hpar h1s rfl hmem huniq
    have hne : ¬ ((getIndex (h.set s { d with nodes := some l }) c).1 = -1) := by
      rw [hfst]
      omega
    have hs3 : (setIndex (getIndex (h.set s { d with nodes := some l }) c).2 c (-1))[s]?
        = some { d with nodes := some l } := by
      rcases setIndex_cases (getIndex (h.set s { d with nodes := some l }) c).2 c (-1) with
        he | ⟨dx, hdx, he⟩
      · rw [he, hcother s hsc]
        exact h1s
      · rw [he, List.getElem?_set_ne (fun e => hsc e.symm), hcother s hsc]
        exact h1s
    have hc3 : (setIndex (getIndex (h.set s { d with nodes := some l }) c).2 c (-1))[c]?
        = some { cd with idx := some (-1) } := by
      unfold setIndex
      simp only [hcself]
      exact List.getElem?_set_self (by
        rw [getIndex_length, List.length_set]
        exact hclt)
    have hdrop : (l.drop i).take 1 = [c] := by
      obtain ⟨hilt, hieq⟩ := List.getElem?_eq_some_iff.mp hmem
      rw [List.drop_eq_getElem_cons hilt, hieq]
      rfl
    have hrem : remove h s c = .ok (
        (setIndex (getIndex (h.set s { d with nodes := some l }) c).2 c (-1)).set s
          { d with nodes := some (l.take i ++ l.drop (i + 1)) },
        .arr [c]) := by
      unfold remove
      simp only [hs, hc, hl, Option.getD_some]
      rw [if_neg hne]
      simp only [hs3, Option.getD_some, hfst]
      simp [splice1, hdrop]
    refine ⟨_, hrem, ?_, ?_⟩
    · have hlen3 : s < (setIndex (getIndex (h.set s { d with nodes := some l }) c).2
          c (-1)).length := by
        rw [setIndex_length, getIndex_length, List.length_set]
        exact hslt
      rw [List.getElem?_set_self hlen3]
      rfl
    · rw [List.getElem?_set_ne hsc, hc3]
      rfl
  · intro hnotmem
    obtain ⟨hfst, hcself, hcother⟩ :=
      getIndex_of_not_mem (p := s) h1c hpar h1s rfl hnotmem
    have hrem : remove h s c
        = .ok ((getIndex (h.set s { d with nodes := some l }) c).2, .nullv) := by
      unfold remove
      simp only [hs, hc, hl, Option.getD_some]
      rw [if_pos hfst]
    refine ⟨_, hrem, ?_⟩
    rw [hcother s hsc, h1s]
    rfl

/-- Witness for C5 at a concrete input: the C1 tree with children
`[a, b, c, d]` (ids 1-4) under id 0, removing `b` (id 2). -/
theorem c5_remove_witness :
    (∀ i : Nat, [1, 2, 3, 4][i]? = some 2 → (∀ j, [1, 2, 3, 4][j]? = some 2 → j = i) →
      ∃ h', remove c1Heap 0 2 = .ok (h', .arr [2]) ∧
        (h'[0]?).bind NodeData.nodes
          = some (([1, 2, 3, 4] : List Nat).take i ++ ([1, 2, 3, 4] : List Nat).drop (i + 1)) ∧
        (h'[2]?).map NodeData.idx = some (some (-1))) ∧
    ((2 : Nat) ∉ ([1, 2, 3, 4] : List Nat) →
      ∃ h', remove c1Heap 0 2 = .ok (h', .nullv) ∧
        (h'[0]?).bind NodeData.nodes = some [1, 2, 3, 4]) :=
  c5_remove_behaviour c1Heap 0 2
    { type := some "foo", val := none, nodes := some [1, 2, 3, 4], parent := none,
      idx := none, count := 4 }
    { type := some "b", val := none, nodes := none, parent := some 0, idx := none, count := 0 }
    [1, 2, 3, 4] (by decide) (by decide) (by decide) (by decide) (by decide)

/-- C3 (counterexample): the state after `foo.push(a); foo.pop()` is
reachable by public operations, `a.parent` still references `foo`, but `a`
occurs zero times in `foo`'s children — `pop` (like `shift` and `remove`)
never clears the removed child's `parent`. -/
theorem c3_invariant_fails_after_pop : ¬ parentChildInv c3Heap := by
  intro hinv
  have h1 := hinv 1
    { type := some "a", val := none, nodes := none, parent := some 0, idx := none, count := 0 }
    0 (by decide) rfl
  exact absurd h1 (by decide)

/-- C3 (amended): a successful `push` (or `unshift`) of a node `c` that does
not already occur among the receiver's children leaves `c.parent = p` and
`c` occurring exactly once in `p`'s children.  The universal containment
invariant does not survive detachment: `pop`/`shift`/`remove` leave the
removed node's `parent` pointing at the old parent. -/
theorem c3_push_unshift_establish (h : Heap) (p c : Nat) (d cd : NodeData)
    (hp : h[p]? = some d) (hc : h[c]? = some cd)
    (hfresh : c ∉ d.nodes.getD []) :
    (∃ h' len, push h p c = .ok (h', len) ∧
      (h'[c]?).map NodeData.parent = some (some p) ∧
      (h'[p]?).bind NodeData.nodes = some (d.nodes.getD [] ++ [c]) ∧
      (d.nodes.getD [] ++ [c]).count c = 1) ∧
    (∃ h' len, unshift h p c = .ok (h', len) ∧
      (h'[c]?).map NodeData.parent = some (some p) ∧
      (h'[p]?).bind NodeData.nodes = some (c :: d.nodes.getD []) ∧
      (c :: d.nodes.getD []).count c = 1) := by
  obtain ⟨hplt, -⟩ := List.getElem?_eq_some_iff.mp hp
  obtain ⟨hclt, -⟩ := List.getElem?_eq_some_iff.mp hc
  have hcount : (d.nodes.getD []).count c = 0 := List.count_eq_zero.mpr hfresh
  have hdnodes : ∀ D : NodeData, D.nodes = (if p = c then cd.nodes else d.nodes) →
      D.nodes = d.nodes := by
    intro D hD
    by_cases hpc : p = c
    · have hdc : d = cd := by
        rw [hpc, hc] at hp
        exact (Option.some.inj hp).symm
      rw [hD]
      simp [hpc, ← hdc]
    · rw [hD]
      simp [hpc]
  constructor
  · obtain ⟨D, hD, -, hDnodes, hDpar, hpush⟩ := push_ok hp hc
    have hDn : D.nodes = d.nodes := hdnodes D hDnodes
    refine ⟨_, _, hpush, ?_, ?_, ?_⟩
    · by_cases hpc : p = c
      · subst hpc
        rw [List.getElem?_set_self (by simpa using hplt)]
        have : D.parent = some p := by
          rw [hDpar]
          simp
        simp [this]
      · rw [List.getElem?_set_ne hpc, List.getElem?_set_self hclt]
        rfl
    · rw [List.getElem?_set_self (by simpa using hplt)]
      simp [hDn]
    · simp [hcount]
  · obtain ⟨D, hD, -, hDnodes, hDpar, hpush⟩ := unshift_ok hp hc
    have hDn : D.nodes = d.nodes := hdnodes D hDnodes
    refine ⟨_, _, hpush, ?_, ?_, ?_⟩
    · by_cases hpc : p = c
      · subst hpc
        rw [List.getElem?_set_self (by simpa using hplt)]
        have : D.parent = some p := by
          rw [hDpar]
          simp
        simp [this]
      · rw [List.getElem?_set_ne hpc, List.getElem?_set_self hclt]
        rfl
    · rw [List.getElem?_set_self (by simpa using hplt)]
      simp [hDn]
    · simp [hcount]

/-- Witness for the amended C3 at a concrete input: pushing the fresh node
`a` (id 1) onto `foo` (id 0). -/
theorem c3_push_witness :
    (∃ h' len, push [mkTypeNode "foo", mkTypeNode "a"] 0 1 = .ok (h', len) ∧
      (h'[1]?).map NodeData.parent = some (some 0) ∧
      (h'[0]?).bind NodeData.nodes = some ((mkTypeNode "foo").nodes.getD [] ++ [1]) ∧
      ((mkTypeNode "foo").nodes.getD [] ++ [1]).count 1 = 1) ∧
    (∃ h' len, unshift [mkTypeNode "foo", mkTypeNode "a"] 0 1 = .ok (h', len) ∧
      (h'[1]?).map NodeData.parent = some (some 0) ∧
      (h'[0]?).bind NodeData.nodes = some (1 :: (mkTypeNode "foo").nodes.getD []) ∧
      (1 :: (mkTypeNode "foo").nodes.getD []).count 1 = 1) :=
  c3_push_unshift_establish [mkTypeNode "foo", mkTypeNode "a"] 0 1
    (mkTypeNode "foo") (mkTypeNode "a") (by decide) (by decide) (by decide)


/-- Pointwise congruence for forest extraction: if `g` succeeds wherever `f`
does on the ids of the list, the extracted forests agree. -/
theorem mapForest_congr (f g : Nat → Option PTree) (ids : List Nat)
    (hfg : ∀ i ∈ ids, ∀ t, f i = some t → g i = some t) :
    ∀ fo, mapForest f ids = some fo → mapForest g ids = some fo := by
  induction ids with
  | nil =>
    intro fo hmap
    unfold mapForest at hmap ⊢
    exact hmap
  | cons i is ih =>
    intro fo hmap
    unfold mapForest at hmap ⊢
    cases hfi : f i with
    | none =>
      rw [hfi] at hmap
      simp at hmap
    | some t =>
      cases hfis : mapForest f is with
      | none =>
        rw [hfi, hfis] at hmap
        simp at hmap
      | some ts =>
        rw [hfi, hfis] at hmap
        rw [hfg i (by simp) t hfi,
          ih (fun j hj t' ht' => hfg j (by simp [hj]) t' ht') ts hfis]
        exact hmap

/-- Tree extraction is monotone in the fuel. -/
theorem toTree_mono : ∀ (fuel fuel2 : Nat) (h : Heap) (n : Nat) (t : PTree),
    fuel ≤ fuel2 → toTree fuel h n = some t → toTree fuel2 h n = some t := by
  intro fuel
  induction fuel with
  | zero =>
    intro fuel2 h n t _ ht
    simp [toTree] at ht
  | succ fuel ih =>
    intro fuel2 h n t hle ht
    cases fuel2 with
    | zero => omega
    | succ fuel2 =>
      unfold toTree at ht ⊢
      cases hn : h[n]? with
      | none =>
        rw [hn] at ht
        simp at ht
      | some d =>
        rw [hn] at ht
        have htm : (match d.nodes with
            | none => some (PTree.mk d.type d.val none)
            | some ids => Option.map (fun f => PTree.mk d.type d.val (some f))
                (mapForest (toTree fuel h) ids)) = some t := ht
        show (match d.nodes with
          | none => some (PTree.mk d.type d.val none)
          | some ids => Option.map (fun f => PTree.mk d.type d.val (some f))
              (mapForest (toTree fuel2 h) ids)) = some t
        cases hnodes : d.nodes with
        | none =>
          rw [hnodes] at htm
          exact htm
        | some ids =>
          rw [hnodes] at htm
          have htm2 : Option.map (fun f => PTree.mk d.type d.val (some f))
              (mapForest (toTree fuel h) ids) = some t := htm
          cases hmap : mapForest (toTree fuel h) ids with
          | none =>
            rw [hmap] at htm2
            simp at htm2
          | some fo =>
            rw [hmap] at htm2
            show Option.map (fun f => PTree.mk d.type d.val (some f))
              (mapForest (toTree fuel2 h) ids) = some t
            rw [mapForest_congr (toTree fuel h) (toTree fuel2 h) ids
              (fun i _ t' ht' => ih fuel2 h i t' (by omega) ht') fo hmap]
            exact htm2

/-- Tree extraction is stable under appending fresh entries to the heap. -/
theorem toTree_append : ∀ (fuel : Nat) (h ext : Heap) (n : Nat) (t : PTree),
    toTree fuel h n = some t → toTree fuel (h ++ ext) n = some t := by
  intro fuel
  induction fuel with
  | zero =>
    intro h ext n t ht
    simp [toTree] at ht
  | succ fuel ih =>
    intro h ext n t ht
    unfold toTree at ht ⊢
    cases hn : h[n]? with
    | none =>
      rw [hn] at ht
      simp at ht
    | some d =>
      rw [hn] at ht
      obtain ⟨hnlt, -⟩ := List.getElem?_eq_some_iff.mp hn
      have hn2 : (h ++ ext)[n]? = some d := by
        rw [List.getElem?_append_left hnlt]
        exact hn
      rw [hn2]
      have htm : (match d.nodes with
          | none => some (PTree.mk d.type d.val none)
          | some ids => Option.map (fun f => PTree.mk d.type d.val (some f))
              (mapForest (toTree fuel h) ids)) = some t := ht
      show (match d.nodes with
        | none => some (PTree.mk d.type d.val none)
        | some ids => Option.map (fun f => PTree.mk d.type d.val (some f))
            (mapForest (toTree fuel (h ++ ext)) ids)) = some t
      cases hnodes : d.nodes with
      | none =>
        rw [hnodes] at htm
        exact htm
      | some ids =>
        rw [hnodes] at htm
        have htm2 : Option.map (fun f => PTree.mk d.type d.val (some f))
            (mapForest (toTree fuel h) ids) = some t := htm
        cases hmap : mapForest (toTree fuel h) ids with
        | none =>
          rw [hmap] at htm2
          simp at htm2
        | some fo =>
          rw [hmap] at htm2
          show Option.map (fun f => PTree.mk d.type d.val (some f))
            (mapForest (toTree fuel (h ++ ext)) ids) = some t
          rw [mapForest_congr (toTree fuel h) (toTree fuel (h ++ ext)) ids
            (fun i _ t' ht' => ih h ext i t' ht') fo hmap]
          exact htm2

mutual

/-- `allocTree` only appends entries — all with null `parent`, no `idx` and
zero `count` — and returns a root id inside the appended block. -/
theorem allocTree_shape (h : Heap) (t : PTree) :
    (∃ ext, (allocTree h t).1 = h ++ ext ∧
      ∀ d ∈ ext, d.parent = none ∧ d.idx = none ∧ d.count = 0) ∧
    h.length ≤ (allocTree h t).2 ∧ (allocTree h t).2 < (allocTree h t).1.length := by
  cases t with
  | mk ty v ch =>
    cases ch with
    | none =>
      refine ⟨⟨[{ type := ty, val := v, nodes := none, parent := none, idx := none, count := 0 }], rfl, ?_⟩, le_refl _, by simp [allocTree]⟩
      intro d hd
      simp at hd
      subst hd
      exact ⟨rfl, rfl, rfl⟩
    | some f =>
      obtain ⟨⟨ext, hext, hprop⟩, hlen, -⟩ := allocForest_shape h f
      refine ⟨⟨ext ++ [{ type := ty, val := v, nodes := some (allocForest h f).2, parent := none, idx := none, count := 0 }], ?_, ?_⟩, ?_, ?_⟩
      · show (allocForest h f).1 ++ [_] = h ++ (ext ++ [_])
        rw [hext, List.append_assoc]
      · intro d hd
        rcases List.mem_append.mp hd with hd1 | hd2
        · exact hprop d hd1
        · simp at hd2
          subst hd2
          exact ⟨rfl, rfl, rfl⟩
      · show h.length ≤ (allocForest h f).1.length
        exact hlen
      · show (allocForest h f).1.length < ((allocForest h f).1 ++ [_]).length
        simp

/-- `allocForest` only appends fresh, parentless entries; every returned id
lies in the appended block. -/
theorem allocForest_shape (h : Heap) (f : PForest) :
    (∃ ext, (allocForest h f).1 = h ++ ext ∧
      ∀ d ∈ ext, d.parent = none ∧ d.idx = none ∧ d.count = 0) ∧
    h.length ≤ (allocForest h f).1.length ∧
    ∀ i ∈ (allocForest h f).2, h.length ≤ i ∧ i < (allocForest h f).1.length := by
  cases f with
  | nil =>
    exact ⟨⟨[], by simp [allocForest], by simp⟩, by simp [allocForest], by simp [allocForest]⟩
  | cons t ts =>
    obtain ⟨⟨ext1, hext1, hprop1⟩, hroot1, hrootlt1⟩ := allocTree_shape h t
    obtain ⟨⟨ext2, hext2, hprop2⟩, hlen2, hids2⟩ := allocForest_shape (allocTree h t).1 ts
    have hlen1 : h.length ≤ (allocTree h t).1.length := by
      rw [hext1, List.length_append]
      omega
    refine ⟨⟨ext1 ++ ext2, ?_, ?_⟩, ?_, ?_⟩
    · show (allocForest (allocTree h t).1 ts).1 = h ++ (ext1 ++ ext2)
      rw [hext2, hext1, List.append_assoc]
    · intro d hd
      rcases List.mem_append.mp hd with hd1 | hd2
      · exact hprop1 d hd1
      · exact hprop2 d hd2
    · show h.length ≤ (allocForest (allocTree h t).1 ts).1.length
      omega
    · intro i hi
      show h.length ≤ i ∧ i < (allocForest (allocTree h t).1 ts).1.length
      rcases List.mem_cons.mp hi with hi1 | hi2
      · subst hi1
        exact ⟨hroot1, by omega⟩
      · obtain ⟨hge, hlt⟩ := hids2 i hi2
        exact ⟨by omega, hlt⟩

end

mutual

/-- Re-extracting the structure of a freshly materialized tree — in any
further extension of the heap — gives back the same tree: the clone is
structurally equal to what was copied. -/
theorem toTree_allocTree (t : PTree) : ∀ (h ext : Heap),
    toTree (heightT t) ((allocTree h t).1 ++ ext) (allocTree h t).2 = some t := by
  cases t with
  | mk ty v ch =>
    cases ch with
    | none =>
      intro h ext
      simp only [allocTree, heightT]
      unfold toTree
      have hget : ((h ++ [{ type := ty, val := v, nodes := none, parent := none, idx := none, count := 0 }]) ++ ext)[h.length]? = some { type := ty, val := v, nodes := none, parent := none, idx := none, count := 0 } := by
        rw [List.getElem?_append_left (by simp)]
        exact List.getElem?_concat_length _ _
      rw [hget]
      rfl
    | some f =>
      intro h ext
      simp only [allocTree, heightT]
      unfold toTree
      have hget : (((allocForest h f).1 ++ [{ type := ty, val := v, nodes := some (allocForest h f).2, parent := none, idx := none, count := 0 }]) ++ ext)[(allocForest h f).1.length]? = some { type := ty, val := v, nodes := some (allocForest h f).2, parent := none, idx := none, count := 0 } := by
        rw [List.getElem?_append_left (by simp)]
        exact List.getElem?_concat_length _ _
      rw [hget]
      simp only [Option.some_bind]
      have hmap := toTree_allocForest f h ([{ type := ty, val := v, nodes := some (allocForest h f).2, parent := none, idx := none, count := 0 }] ++ ext) (heightF f) (le_refl _)
      rw [← List.append_assoc] at hmap
      rw [hmap]
      rfl

/-- Forest version: re-extracting each freshly materialized subtree, with
any fuel at least the forest's height, in any extension of the heap. -/
theorem toTree_allocForest (f : PForest) : ∀ (h ext : Heap) (fuel : Nat),
    heightF f ≤ fuel →
    mapForest (toTree fuel ((allocForest h f).1 ++ ext)) (allocForest h f).2 = some f := by
  cases f with
  | nil =>
    intro h ext fuel _
    simp [allocForest, mapForest]
  | cons t ts =>
    intro h ext fuel hfuel
    simp only [heightF] at hfuel
    simp only [allocForest]
    unfold mapForest
    obtain ⟨⟨ext2, hext2, -⟩, -, -⟩ := allocForest_shape (allocTree h t).1 ts
    have hhead : toTree fuel ((allocForest (allocTree h t).1 ts).1 ++ ext) (allocTree h t).2
        = some t := by
      have h1 := toTree_allocTree t h (ext2 ++ ext)
      rw [← List.append_assoc, ← hext2] at h1
      exact toTree_mono (heightT t) fuel _ _ t (le_trans (le_max_left _ _) hfuel) h1
    have htail := toTree_allocForest ts (allocTree h t).1 ext fuel
      (le_trans (le_max_right _ _) hfuel)
    rw [hhead, htail]

end

/-- C8 (counterexample): cloning the two-node tree `foo → bar` yields a fresh
root (id 3) whose child is the fresh node 2; the claim requires the cloned
child's `parent` to point at the cloned root, but it is null: `clone-deep`
never copies or repoints the non-enumerable `parent` field. -/
theorem c8_clone_parent_not_repointed :
    (c8Clone.1[c8Clone.2]?).bind NodeData.nodes = some [2] ∧
    (c8Clone.1[2]?).map NodeData.parent = some none ∧
    (c8Clone.1[2]?).map NodeData.parent ≠ some (some c8Clone.2) := by
  decide

/-- C8 (amended): whenever the clone succeeds (`toTree` extracts the
enumerable structure within the fuel), the cloned tree (1) leaves every
original node untouched, (2) has a root outside the original heap — so no
level of the clone is identity-equal to an original node and no mutable
state is shared, and (3) extracts to exactly the same structure
(`type`/`val`/children, recursively); but (4) every node of the clone,
children included, has a null `parent` back-reference — not a reference to
the cloned ancestor. -/
theorem c8_clone_structure (fuel : Nat) (h : Heap) (n : Nat) (h2 : Heap) (r : Nat)
    (hclone : cloneNode fuel h n = some (h2, r)) :
    (∀ m, m < h.length → h2[m]? = h[m]?) ∧
    h.length ≤ r ∧
    (∀ t, toTree fuel h n = some t → toTree (heightT t) h2 r = some t) ∧
    (∀ j d, h.length ≤ j → h2[j]? = some d → d.parent = none) := by
  cases ht : toTree fuel h n with
  | none =>
    rw [cloneNode, ht] at hclone
    simp at hclone
  | some t0 =>
    rw [cloneNode, ht] at hclone
    simp only [Option.map_some'] at hclone
    have hpair := Option.some.inj hclone
    have hh2 : h2 = (allocTree h t0).1 := by rw [hpair]
    have hr : r = (allocTree h t0).2 := by rw [hpair]
    obtain ⟨⟨ext, hext, hprop⟩, hrge, hrlt⟩ := allocTree_shape h t0
    refine ⟨?_, ?_, ?_, ?_⟩
    · intro m hm
      rw [hh2, hext]
      exact List.getElem?_append_left hm
    · rw [hr]
      exact hrge
    · intro t ht2
      have ht0t : t0 = t := Option.some.inj ht2
      subst ht0t
      rw [hh2, hr]
      have := toTree_allocTree t0 h []
      rwa [List.append_nil] at this
    · intro j d hj hd
      rw [hh2, hext] at hd
      rw [List.getElem?_append_right hj] at hd
      exact (hprop d (List.getElem?_mem hd)).1

/-- Witness for the amended C8 at a concrete input: cloning the two-node
tree `foo (id 0) → bar (id 1)` with fuel 2 produces the heap extended with
the fresh child (id 2) and fresh root (id 3). -/
theorem c8_clone_witness :
    (∀ m, m < c4Heap.length → c8WitnessHeap[m]? = c4Heap[m]?) ∧
    c4Heap.length ≤ 3 ∧
    (∀ t, toTree 2 c4Heap 0 = some t → toTree (heightT t) c8WitnessHeap 3 = some t) ∧
    (∀ j d, c4Heap.length ≤ j → c8WitnessHeap[j]? = some d → d.parent = none) :=
  c8_clone_structure 2 c4Heap 0 c8WitnessHeap 3 (by decide)

end SnapdragonNode
